import Mathlib

/-!
Verification of the k8s2ai command line front end (file k8s2ai.py).

The development shallowly embeds the pure core of the program: Python
strings become lists of characters, the JSON shaped diagnostic report
becomes an explicit structure decoded with the same defaults as the
source, subprocess execution becomes a deterministic oracle from the
command line to a process result, and every function keeps the control
flow of the Python it models.  Line numbers in doc comments refer to
k8s2ai.py.
-/

namespace K8s2ai

/-- Python strings are modelled as lists of characters. -/
abbrev Str := List Char

/-- Whitespace characters stripped by the Python methods str.strip and
matched by the regex class backslash-s, restricted to ASCII, which is the
alphabet the diagnostic tool emits. -/
def isPySpace (c : Char) : Bool :=
  c = ' ' || c = '\t' || c = '\n' || c = '\r' || c = Char.ofNat 11 || c = Char.ofNat 12

/-- Models the Python method str.strip with no arguments: remove leading
and trailing whitespace. -/
def pyStrip (s : Str) : Str :=
  ((s.dropWhile isPySpace).reverse.dropWhile isPySpace).reverse

/-- Index of the first occurrence of the substring sep in s, as the
Python method str.find returns it; none when sep does not occur.  An
empty sep is reported at index 0, matching Python. -/
def findSubIdx (sep : Str) : Str → Option Nat
  | [] => if sep = [] then some 0 else none
  | c :: cs =>
    if sep.isPrefixOf (c :: cs) then some 0
    else (findSubIdx sep cs).map (fun n => n + 1)

/-- Models the Python membership test sep in s on strings. -/
def containsSub (sep s : Str) : Bool := (findSubIdx sep s).isSome

/-- Everything after the first occurrence of sep, or all of s when sep
does not occur. -/
def afterFirst (sep s : Str) : Str :=
  match findSubIdx sep s with
  | some i => s.drop (i + sep.length)
  | none => s

/-- Models the Python expression s.split(sep)[1]: the segment strictly
between the first occurrence of sep and the next occurrence (or the end
of the string when sep occurs only once).  Meaningful when sep occurs in
s, which is how line 296 of the source guards the call. -/
def splitIndex1 (sep s : Str) : Str :=
  match findSubIdx sep (afterFirst sep s) with
  | some j => (afterFirst sep s).take j
  | none => afterFirst sep s

/-- The literal marker "Solution:" from line 295 of the source, written
out as its characters. -/
def marker : Str := ['S', 'o', 'l', 'u', 't', 'i', 'o', 'n', ':']

/-- Models re.match applied to the raw pattern caret (backslash-d plus)
dot backslash-s plus dot-plus dollar from line 299 of the source, on a
line that contains no newline (the caller splits on newlines first): one
or more digits, a period, at least one whitespace character, then at
least one further character. -/
def matchesStep (l : Str) : Bool :=
  let ds := l.takeWhile Char.isDigit
  decide (ds ≠ []) &&
    (match l.drop ds.length with
     | '.' :: c :: rest => isPySpace c && decide (rest ≠ [])
     | _ => false)

/-- Models the accumulation loop of lines 301 to 326 of the source:
current step accumulator cur, collected steps acc.  A stripped empty
line is skipped; a line matching the numbered step pattern flushes the
current step and starts a new one; any other line is space joined onto
the current step (or starts it). -/
def stepLoop : List Str → Str → List Str → List Str
  | [], cur, acc => if cur = [] then acc else acc ++ [pyStrip cur]
  | l :: ls, cur, acc =>
    if pyStrip l = [] then stepLoop ls cur acc
    else if matchesStep (pyStrip l) = true then
      if cur = [] then stepLoop ls (pyStrip l) acc
      else stepLoop ls (pyStrip l) (acc ++ [pyStrip cur])
    else
      if cur = [] then stepLoop ls (pyStrip l) acc
      else stepLoop ls (cur ++ ' ' :: pyStrip l) acc

/-- Models lines 293 to 329 of the source: the decomposition of one
details field into solution steps.  With the marker present the code
splits on the marker and takes element 1, strips it, splits into lines
and runs the accumulation loop; without the marker the whole details
string is the single step, verbatim. -/
def findingSteps (details : Str) : List Str :=
  if containsSub marker details = true then
    stepLoop (List.splitOn '\n' (pyStrip (splitIndex1 marker details))) [] []
  else [details]

/-- The error field of one result object of the diagnostic report.  Per
the external interface it is absent, a list of objects each with an
optional Text field, or a single such object; the Bool on the object
form records whether the object carries any other key, which only
affects Python truthiness. -/
inductive ErrVal where
  | absent
  | lst (objs : List (Option Str))
  | dct (text : Option Str) (hasOtherKeys : Bool)
deriving DecidableEq

/-- Python truthiness of the error field as tested on line 281 of the
source: absent (None) is falsy, a list is truthy when nonempty, a dict
is truthy when it has at least one key. -/
def errTruthy : ErrVal → Bool
  | .absent => false
  | .lst objs => decide (objs ≠ [])
  | .dct t other => t.isSome || other

/-- The default string "Unknown error" from lines 286 to 291. -/
def unknownError : Str := (r"Unknown error").toList

/-- Models lines 285 to 291 of the source: derive the error text from
the error field, with "Unknown error" as the default at every step. -/
def errorText : ErrVal → Str
  | .lst (o :: _) => o.getD unknownError
  | .lst [] => unknownError
  | .dct t _ => t.getD unknownError
  | .absent => unknownError

/-- One element of the results list of the diagnostic report, with the
fields extract_solutions reads; absent JSON keys are none. -/
structure KResult where
  kind : Option Str
  name : Option Str
  error : ErrVal
  details : Option Str
deriving DecidableEq

/-- Python truthiness of result.get("details") as tested on line 281:
present and a nonempty string. -/
def detailsTruthy (d : Option Str) : Bool := decide (d.getD [] ≠ [])

/-- The default string "Unknown" of lines 335 and 336. -/
def unknownStr : Str := (r"Unknown").toList

/-- Models result.get("kind", "Unknown") from line 335. -/
def kindOf (res : KResult) : Str := res.kind.getD unknownStr

/-- Models result.get("name", "Unknown") from line 336. -/
def nameOf (res : KResult) : Str := res.name.getD unknownStr

/-- One solution dictionary as built on lines 333 to 340 of the
source. -/
structure Solution where
  id : Nat
  kind : Str
  name : Str
  error : Str
  solution : Str
  full_details : Str
deriving DecidableEq

/-- Models one iteration of the append loop on lines 332 to 340: the id
is one more than the number of solutions already collected. -/
def pushStep (k n e d : Str) (a : List Solution) (step : Str) : List Solution :=
  a ++ [⟨a.length + 1, k, n, e, step, d⟩]

/-- Models the body of the results loop, lines 280 to 340 of the source:
a result with truthy error and details contributes one solution per
decomposed step, appended to the running list. -/
def appendFindingSolutions (acc : List Solution) (res : KResult) : List Solution :=
  if errTruthy res.error = true ∧ detailsTruthy res.details = true then
    (findingSteps (res.details.getD [])).foldl
      (pushStep (kindOf res) (nameOf res) (errorText res.error) (res.details.getD [])) acc
  else acc

/-- Models extract_solutions, lines 273 to 342 of the source.  The
argument is the results field of the parsed report; the guard on
line 277 returns early when the field is absent or the empty list. -/
def extract_solutions (results? : Option (List KResult)) : List Solution :=
  match results? with
  | none => []
  | some rs => if rs = [] then [] else rs.foldl appendFindingSolutions []

/-- The id free part of a solution entry, used to state properties that
do not depend on the running counter. -/
structure SolutionCore where
  kind : Str
  name : Str
  error : Str
  solution : Str
  full_details : Str
deriving DecidableEq

/-- Forget the id of a solution. -/
def core (s : Solution) : SolutionCore :=
  ⟨s.kind, s.name, s.error, s.solution, s.full_details⟩

/-- The id free solutions contributed by one result of the report,
following lines 280 to 340 of the source. -/
def contribution (res : KResult) : List SolutionCore :=
  if errTruthy res.error = true ∧ detailsTruthy res.details = true then
    (findingSteps (res.details.getD [])).map
      (fun step => ⟨kindOf res, nameOf res, errorText res.error, step, res.details.getD []⟩)
  else []

/-- Concatenation of the contributions of a list of results. -/
def contributionsOf : List KResult → List SolutionCore
  | [] => []
  | res :: rs => contribution res ++ contributionsOf rs

/-- Models the grouping key built on line 350 of the source: the three
fields joined with a vertical bar. -/
def groupKey (s : Solution) : Str := s.kind ++ '|' :: s.name ++ '|' :: s.error

/-- The grouping key a result would produce for its solutions, the
composite of derived kind, name and error text. -/
def resultKey (res : KResult) : Str :=
  kindOf res ++ '|' :: nameOf res ++ '|' :: errorText res.error

/-- Models one insertion into the Python dict of line 347: dicts keep
insertion order, so an existing key has the solution appended to its
list in place and a new key is appended at the end. -/
def insertSol : List (Str × List Solution) → Solution → List (Str × List Solution)
  | [], s => [(groupKey s, [s])]
  | (k, v) :: rest, s =>
    if k = groupKey s then (k, v ++ [s]) :: rest
    else (k, v) :: insertSol rest s

/-- Models group_solutions_by_error, lines 345 to 354 of the source, as
an ordered association list standing for the insertion ordered dict. -/
def group_solutions_by_error (sols : List Solution) : List (Str × List Solution) :=
  sols.foldl insertSol []

/-- Lookup of one group by key, reading the first matching entry,
standing for dict indexing. -/
def getGroup : List (Str × List Solution) → Str → List Solution
  | [], _ => []
  | (k, v) :: rest, key => if k = key then v else getGroup rest key

/-- The keys of l that are not in seen, each kept at its first
occurrence, in order: the key order an insertion ordered dict ends up
with after inserting all of l on top of seen. -/
def newKeys (seen : List Str) : List Str → List Str
  | [] => []
  | k :: ks => if k ∈ seen then newKeys seen ks else k :: newKeys (k :: seen) ks

/-- Outcome of the solution selection step of main, lines 674 to 681 and
703 to 710 of the source. -/
inductive SelOutcome where
  | fatalOutOfRange
  | autoPick (j : Nat)
  | interactive
deriving DecidableEq

/-- Python truthiness of the parsed optional integer flag: None is
falsy, and so is the integer 0. -/
def pyTruthyOptInt : Option Int → Bool
  | none => false
  | some n => decide (n ≠ 0)

/-- Models the solution selection branch of main, lines 674 to 681 (and
identically 703 to 710): the test on line 674 is Python truthiness of
args.auto_select, the range test is 1 <= n <= len(error_solutions),
in range picks index n - 1, out of range prints and exits with status 1,
and a falsy flag falls through to the interactive select_solution. -/
def selectSolutionStep (autoSel : Option Int) (numSolutions : Nat) : SelOutcome :=
  if pyTruthyOptInt autoSel = true then
    if 1 ≤ autoSel.getD 0 ∧ autoSel.getD 0 ≤ (numSolutions : Int) then
      .autoPick ((autoSel.getD 0).toNat - 1)
    else .fatalOutOfRange
  else .interactive

/-- The opening brace character, the JSON boundary the source looks
for. -/
def lbrace : Char := Char.ofNat 123

/-- Models s.startswith applied to the one character string holding the
opening brace. -/
def startsWithBrace : Str → Bool
  | [] => false
  | c :: _ => decide (c = lbrace)

/-- Models the JSON recovery of lines 240 to 264 of the source, with the
JSON parser abstracted as a total function parse into an optional parsed
value (the try and except around json.loads makes the source equally
total: a parse failure leaves parsed_json as None).  Strip the captured
text; when it begins with a brace parse all of it, otherwise parse the
join of the lines from the first line whose stripped form begins with a
brace; none when no such line exists or parsing fails. -/
def extractReportJson (J : Type) (parse : Str → Option J) (text : Str) : Option J :=
  if startsWithBrace (pyStrip text) = true then parse (pyStrip text)
  else
    match (List.splitOn '\n' (pyStrip text)).findIdx?
        (fun l => startsWithBrace (pyStrip l)) with
    | some i =>
      parse (List.intercalate ['\n'] ((List.splitOn '\n' (pyStrip text)).drop i))
    | none => none

/-- Modelled from the specification words for the extractor contract: if
the trimmed text begins with a brace, parse the whole trimmed text;
otherwise scan line by line for the first line whose trimmed content
begins with a brace and parse the concatenation of that line and every
subsequent line; when parsing fails or no such line exists the result is
the not found value. -/
def extractReportJsonSpec (J : Type) (parse : Str → Option J) (text : Str) : Option J :=
  if startsWithBrace (pyStrip text) = true then parse (pyStrip text)
  else
    match (List.splitOn '\n' (pyStrip text)).findIdx?
        (fun l => startsWithBrace (pyStrip l)) with
    | some i =>
      parse (List.intercalate ['\n'] ((List.splitOn '\n' (pyStrip text)).drop i))
    | none => none

/-- Result of one child process invocation: exit code and the captured
streams, which per the source are the concatenation of all chunks read
from the respective pipe. -/
structure ProcResult where
  returncode : Int
  stdout : Str
  stderr : Str
deriving DecidableEq

/-- The word k8sgpt, the diagnostic executable name. -/
def k8sgptWord : Str := (r"k8sgpt").toList

/-- The long output flag string. -/
def outputFlagWord : Str := (r"--output").toList

/-- The short output flag string. -/
def shortFlagWord : Str := (r"-o").toList

/-- The word json. -/
def jsonWord : Str := (r"json").toList

/-- Models lines 77 to 82 of the source: the forwarded arguments already
carry an explicit output format flag when one of them is the long or the
short flag string. -/
def hasOutputFlag (args : List Str) : Bool :=
  args.any (fun a => decide (a = outputFlagWord ∨ a = shortFlagWord))

/-- Models the invocation logic of run_k8sgpt in JSON mode, lines 70 to
227 of the source, with the child process abstracted as a deterministic
oracle exec from the full command line to a process result.  The command
is the executable followed by the forwarded arguments, extended with the
output flag when none is present; when that first attempt exits non zero
and the flag was synthesized, the original arguments are run once more
without the flag and that result is returned.  The second component
records every command line handed to exec, in order. -/
def run_k8sgpt_json (exec : List Str → ProcResult) (args : List Str) :
    ProcResult × List (List Str) :=
  if hasOutputFlag args = true then
    (exec (k8sgptWord :: args), [k8sgptWord :: args])
  else
    if (exec (k8sgptWord :: (args ++ [outputFlagWord, jsonWord]))).returncode ≠ 0 then
      (exec (k8sgptWord :: args),
        [k8sgptWord :: (args ++ [outputFlagWord, jsonWord]), k8sgptWord :: args])
    else
      (exec (k8sgptWord :: (args ++ [outputFlagWord, jsonWord])),
        [k8sgptWord :: (args ++ [outputFlagWord, jsonWord])])

/-- Modelled from the words of claim C4: take everything after the first
occurrence of the marker (rather than the segment up to the next
occurrence) and decompose that, the rest as in the source. -/
def findingStepsAfterFirst (details : Str) : List Str :=
  if containsSub marker details = true then
    stepLoop (List.splitOn '\n' (pyStrip (afterFirst marker details))) [] []
  else [details]

/-- How the execute_with_kubectl_ai monitor run can end, abstracting the
timing driven loop of lines 577 to 601 of the source: the child exits on
its own; or it exits within the two second wait after the terminate
request issued on idle or on the hard ceiling; or that wait times out
and the child is forcibly killed. -/
inductive MonitorEnd where
  | exitedSelf (rc : Int)
  | exitedAfterTerminate (rc : Int)
  | forcedKill
deriving DecidableEq

/-- The return code process.wait() reports at line 598 or 601: the exit
code of the child in the first two cases, and the negated kill signal
number, minus nine, after a forced kill, as the operating system reports
it. -/
def monitorReturnCode : MonitorEnd → Int
  | .exitedSelf rc => rc
  | .exitedAfterTerminate rc => rc
  | .forcedKill => -9

/-- Models line 603 of the source: execute_with_kubectl_ai returns
returncode == 0. -/
def execute_with_kubectl_ai (e : MonitorEnd) : Bool :=
  decide (monitorReturnCode e = 0)

/-- Claim C1, evaluated at the failing input: with a three solution
group, auto select index 4 exits fatally out of range as the claim
states, but auto select index 0 falls through to interactive prompting,
because the truthiness test on line 674 treats the integer 0 like an
absent flag; the claim (and the help text of the flag, which promises
selection without prompting) requires a fatal out of range exit for
index 0 as well. -/
theorem C1_autoselect_zero_goes_interactive :
    selectSolutionStep (some 0) 3 = SelOutcome.interactive ∧
    selectSolutionStep (some 4) 3 = SelOutcome.fatalOutOfRange := by
  exact ⟨by decide, by decide⟩

/-- Claim C9: the interactive completion monitor returns true exactly
when the final reported exit code is zero, and in particular returns
false after a forced kill, since the reported code is then the negated
kill signal number. -/
theorem C9_monitor_success_iff_zero (e : MonitorEnd) :
    (execute_with_kubectl_ai e = true ↔ monitorReturnCode e = 0) ∧
    (e = MonitorEnd.forcedKill → execute_with_kubectl_ai e = false) := by
  constructor
  · simp [execute_with_kubectl_ai]
  · intro h
    subst h
    decide

/-- Witness for claim C9 at the forced kill outcome. -/
theorem C9_monitor_success_iff_zero_witness :
    execute_with_kubectl_ai MonitorEnd.forcedKill = false :=
  (C9_monitor_success_iff_zero MonitorEnd.forcedKill).2 rfl

/-- Claim C2: on every input text the JSON recovery of the source agrees
with the specification algorithm (trimmed text starting with a brace is
parsed whole, otherwise the join from the first line whose trimmed
content starts with a brace is parsed, otherwise not found), and when
the parser rejects everything, as on malformed content, the result is
the not found value rather than an error. -/
theorem C2_extractor_matches_spec (J : Type) (parse : Str → Option J) (text : Str) :
    extractReportJson J parse text = extractReportJsonSpec J parse text ∧
    ((∀ s, parse s = none) → extractReportJson J parse text = none) := by
  constructor
  · rfl
  · intro hp
    unfold extractReportJson
    by_cases hb : startsWithBrace (pyStrip text) = true
    · rw [if_pos hb]
      exact hp _
    · rw [if_neg hb]
      cases hfind : (List.splitOn '\n' (pyStrip text)).findIdx?
          (fun l => startsWithBrace (pyStrip l)) with
      | none => rfl
      | some i => exact hp _

/-- Witness for claim C2: a parser that rejects everything yields the
not found value on a concrete text. -/
theorem C2_extractor_matches_spec_witness :
    extractReportJson Nat (fun _ => none) ((r"no json here").toList) = none :=
  (C2_extractor_matches_spec Nat (fun _ => none) ((r"no json here").toList)).2
    (fun _ => rfl)

/-- Claim C3: in JSON mode, when the output flag had to be synthesized
and the first attempt exits non zero, the diagnostic tool is invoked
exactly once more, with the original arguments unmodified, and that
second result is returned; when the flag was already present there is a
single invocation and no retry, whatever the exit code. -/
theorem C3_retry_exactly_once (exec : List Str → ProcResult) (args : List Str) :
    (hasOutputFlag args = false →
      (exec (k8sgptWord :: (args ++ [outputFlagWord, jsonWord]))).returncode ≠ 0 →
      run_k8sgpt_json exec args =
        (exec (k8sgptWord :: args),
          [k8sgptWord :: (args ++ [outputFlagWord, jsonWord]), k8sgptWord :: args])) ∧
    (hasOutputFlag args = true →
      run_k8sgpt_json exec args = (exec (k8sgptWord :: args), [k8sgptWord :: args])) := by
  constructor
  · intro hf hrc
    unfold run_k8sgpt_json
    rw [if_neg (by simp [hf]), if_pos hrc]
  · intro hf
    unfold run_k8sgpt_json
    rw [if_pos hf]

/-- Witness for claim C3: a child that always fails, invoked without an
explicit output flag, is run a second time without the synthesized flag
and that failing result is returned. -/
theorem C3_retry_exactly_once_witness :
    run_k8sgpt_json (fun _ => ⟨1, [], []⟩) [(r"analyze").toList] =
      (⟨1, [], []⟩,
        [k8sgptWord :: ([(r"analyze").toList] ++ [outputFlagWord, jsonWord]),
          k8sgptWord :: [(r"analyze").toList]]) :=
  (C3_retry_exactly_once (fun _ => ⟨1, [], []⟩) [(r"analyze").toList]).1
    (by decide) (by decide)

/-- Claim C4 is refuted at an explicit input: for a details text holding
the marker twice, the source keeps only the segment between the first
and the second occurrence, because Python split on the marker followed
by taking element one stops at the next occurrence, so the text after
the second occurrence is dropped; decomposing everything after the first
occurrence, as the claim states, would keep it. -/
theorem C4_counterexample :
    findingSteps ((r"Solution: A").toList ++ '\n' :: (r"Solution: B").toList)
        = [['A']] ∧
    findingStepsAfterFirst ((r"Solution: A").toList ++ '\n' :: (r"Solution: B").toList)
        = [(r"A Solution: B").toList] ∧
    findingSteps ((r"Solution: A").toList ++ '\n' :: (r"Solution: B").toList) ≠
      findingStepsAfterFirst
        ((r"Solution: A").toList ++ '\n' :: (r"Solution: B").toList) := by
  exact ⟨by decide, by decide, by decide⟩

/-- Claim C4 amended: when the details text contains the marker, the
material split into steps is the segment between the first occurrence of
the marker and the next occurrence; it equals everything after the first
occurrence exactly in the case that the marker does not occur a second
time, and in that case the decomposition agrees with the claim. -/
theorem C4_amended_single_occurrence (details : Str)
    (_hmark : containsSub marker details = true)
    (hone : containsSub marker (afterFirst marker details) = false) :
    findingSteps details = findingStepsAfterFirst details := by
  have hsplit : splitIndex1 marker details = afterFirst marker details := by
    unfold splitIndex1
    have hnone : findSubIdx marker (afterFirst marker details) = none := by
      cases hf : findSubIdx marker (afterFirst marker details) with
      | none => rfl
      | some j =>
        rw [containsSub, hf] at hone
        simp at hone
    rw [hnone]
  unfold findingSteps findingStepsAfterFirst
  rw [hsplit]

/-- Witness for the amended claim C4 on a single occurrence input. -/
theorem C4_amended_single_occurrence_witness :
    findingSteps ((r"Solution: restart the pod").toList) =
      findingStepsAfterFirst ((r"Solution: restart the pod").toList) :=
  C4_amended_single_occurrence ((r"Solution: restart the pod").toList)
    (by decide) (by decide)

/-- Claim C5 is refuted at an explicit input: a finding whose details
carry surrounding whitespace and no marker yields one entry whose step
text is the details verbatim, which differs from the trimmed details the
claim requires. -/
theorem C5_counterexample :
    (extract_solutions (some [⟨some ((r"Pod").toList), some ((r"web").toList),
        ErrVal.lst [some ((r"ImagePullBackOff").toList)],
        some ((r" fix it ").toList)⟩])).map Solution.solution
      = [(r" fix it ").toList] ∧
    pyStrip ((r" fix it ").toList) ≠ (r" fix it ").toList := by
  exact ⟨by decide, by decide⟩

/-- Claim C5 amended: a finding with truthy error and details whose
details contain no marker contributes exactly one entry, and its step
text is the details verbatim, not trimmed. -/
theorem C5_amended_verbatim_details (res : KResult)
    (herr : errTruthy res.error = true)
    (hdet : detailsTruthy res.details = true)
    (hm : containsSub marker (res.details.getD []) = false) :
    contribution res =
      [⟨kindOf res, nameOf res, errorText res.error,
        res.details.getD [], res.details.getD []⟩] := by
  unfold contribution
  rw [if_pos ⟨herr, hdet⟩]
  unfold findingSteps
  rw [if_neg (by simp [hm])]
  rfl

/-- Witness for the amended claim C5 on a concrete finding. -/
theorem C5_amended_verbatim_details_witness :
    contribution ⟨some ((r"Pod").toList), some ((r"web").toList),
        ErrVal.lst [some ((r"Bad").toList)], some ((r"restart it").toList)⟩ =
      [⟨(r"Pod").toList, (r"web").toList, (r"Bad").toList,
        (r"restart it").toList, (r"restart it").toList⟩] :=
  C5_amended_verbatim_details _ (by decide) (by decide) (by decide)

/-- A string of whitespace strips to the empty string. -/
theorem pyStrip_nil_of_space (s : Str) (h : ∀ c ∈ s, isPySpace c = true) :
    pyStrip s = [] := by
  unfold pyStrip
  rw [List.dropWhile_eq_nil_iff.mpr h]
  rfl

/-- A nonempty prefix is found at index zero. -/
theorem findSubIdx_self_zero (sep s : Str) (hs : sep.isPrefixOf s = true) :
    findSubIdx sep s = some 0 := by
  cases s with
  | nil =>
    have he : sep = [] := by
      simpa using List.isPrefixOf_iff_prefix.mp hs
    simp [findSubIdx, he]
  | cons c cs =>
    simp only [findSubIdx]
    rw [if_pos hs]

/-- The marker starts with a letter, so it never occurs in a string of
whitespace. -/
theorem findSubIdx_marker_space (s : Str) (h : ∀ c ∈ s, isPySpace c = true) :
    findSubIdx marker s = none := by
  induction s with
  | nil => decide
  | cons c cs ih =>
    have hc : isPySpace c = true := h c (List.mem_cons_self c cs)
    have hne : ('S' == c) = false := by
      rw [beq_eq_false_iff_ne]
      intro e
      rw [← e] at hc
      exact absurd hc (by decide)
    have hpre : marker.isPrefixOf (c :: cs) = false := by
      show (('S' == c) && _) = false
      rw [hne]
      rfl
    simp only [findSubIdx, hpre]
    simp [ih (fun x hx => h x (List.mem_cons_of_mem c hx))]

/-- Claim C10: a finding with a truthy error whose details are the
marker followed by whitespace only (hence nonempty and truthy details)
contributes no solution entries: the material after the marker strips to
nothing and the step loop collects no steps. -/
theorem C10_marker_then_space_no_entries (ws : Str) (res : KResult)
    (hws : ∀ c ∈ ws, isPySpace c = true)
    (herr : errTruthy res.error = true)
    (hdet : res.details = some (marker ++ ws)) :
    contribution res = [] := by
  have hne : detailsTruthy res.details = true := by
    rw [hdet]
    simp [detailsTruthy, marker]
  have hpre : marker.isPrefixOf (marker ++ ws) = true := by
    rw [ List.isPrefixOf_iff_prefix]
    exact List.prefix_append marker ws
  have h0 : findSubIdx marker (marker ++ ws) = some 0 :=
    findSubIdx_self_zero marker (marker ++ ws) hpre
  have haf : afterFirst marker (marker ++ ws) = ws := by
    unfold afterFirst
    rw [h0]
    simp [List.drop_left]
  have hsp : splitIndex1 marker (marker ++ ws) = ws := by
    unfold splitIndex1
    rw [haf, findSubIdx_marker_space ws hws]
  have hsteps : findingSteps (marker ++ ws) = [] := by
    unfold findingSteps
    rw [if_pos (by unfold containsSub; rw [h0]; rfl), hsp,
      pyStrip_nil_of_space ws hws]
    decide
  unfold contribution
  rw [if_pos ⟨herr, hne⟩, hdet]
  simp [hsteps]

/-- Witness for claim C10 on a concrete finding. -/
theorem C10_marker_then_space_no_entries_witness :
    contribution ⟨some ((r"Pod").toList), some ((r"web").toList),
        ErrVal.lst [some ((r"Bad").toList)], some (marker ++ [' ', '\n', ' '])⟩
      = [] :=
  C10_marker_then_space_no_entries [' ', '\n', ' '] _ (by decide) (by decide) rfl

/-- Appending the next solution keeps the ids consecutive from one. -/
theorem pushStep_ids (k n e d : Str) (a : List Solution) (step : Str)
    (h : a.map Solution.id = List.range' 1 a.length) :
    (pushStep k n e d a step).map Solution.id
      = List.range' 1 (pushStep k n e d a step).length := by
  unfold pushStep
  simp [h, List.range'_concat, Nat.add_comm]

/-- The fold over the steps of one finding keeps the ids consecutive. -/
theorem foldl_pushStep_ids (k n e d : Str) (steps : List Str) (a : List Solution)
    (h : a.map Solution.id = List.range' 1 a.length) :
    (steps.foldl (pushStep k n e d) a).map Solution.id
      = List.range' 1 (steps.foldl (pushStep k n e d) a).length := by
  induction steps generalizing a with
  | nil => exact h
  | cons s ss ih => exact ih _ (pushStep_ids k n e d a s h)

/-- One result of the report keeps the ids consecutive. -/
theorem appendFindingSolutions_ids (acc : List Solution) (res : KResult)
    (h : acc.map Solution.id = List.range' 1 acc.length) :
    (appendFindingSolutions acc res).map Solution.id
      = List.range' 1 (appendFindingSolutions acc res).length := by
  unfold appendFindingSolutions
  by_cases hc : errTruthy res.error = true ∧ detailsTruthy res.details = true
  · rw [if_pos hc]
    exact foldl_pushStep_ids _ _ _ _ _ acc h
  · rw [if_neg hc]
    exact h

/-- The fold over all results keeps the ids consecutive. -/
theorem foldl_appendFinding_ids (rs : List KResult) (acc : List Solution)
    (h : acc.map Solution.id = List.range' 1 acc.length) :
    (rs.foldl appendFindingSolutions acc).map Solution.id
      = List.range' 1 (rs.foldl appendFindingSolutions acc).length := by
  induction rs generalizing acc with
  | nil => exact h
  | cons r rest ih => exact ih _ (appendFindingSolutions_ids acc r h)

/-- Claim C8: the ids of the extracted solutions are exactly one up to
the number of entries, in output order; the counter runs across the
whole report, so the ids are globally unique within one pass. -/
theorem C8_ids_sequential (results? : Option (List KResult)) :
    (extract_solutions results?).map Solution.id
      = List.range' 1 (extract_solutions results?).length := by
  cases results? with
  | none => rfl
  | some rs =>
    have he : extract_solutions (some rs)
        = if rs = [] then [] else rs.foldl appendFindingSolutions [] := rfl
    rw [he]
    by_cases h : rs = []
    · rw [if_pos h]
      rfl
    · rw [if_neg h]
      exact foldl_appendFinding_ids rs [] rfl

/-- The composite key of the id free part of a solution. -/
def coreKey (c : SolutionCore) : Str := c.kind ++ '|' :: c.name ++ '|' :: c.error

/-- Inserting a solution leaves the key order unchanged when its key is
already present and appends the key at the end otherwise. -/
theorem insertSol_keys (g : List (Str × List Solution)) (s : Solution) :
    (insertSol g s).map Prod.fst =
      if groupKey s ∈ g.map Prod.fst then g.map Prod.fst
      else g.map Prod.fst ++ [groupKey s] := by
  induction g with
  | nil => simp [insertSol]
  | cons p rest ih =>
    obtain ⟨k, v⟩ := p
    by_cases hk : k = groupKey s
    · subst hk
      simp [insertSol]
    · simp only [insertSol, if_neg hk, List.map_cons]
      rw [ih]
      by_cases hm : groupKey s ∈ rest.map Prod.fst
      · rw [if_pos hm, if_pos (by simp [hm])]
      · rw [if_neg hm, if_neg (by simp [hm]; exact fun hh => hk hh.symm)]
        simp

/-- Inserting a solution appends it to the value list of its key and
leaves every other key untouched. -/
theorem insertSol_getGroup (g : List (Str × List Solution)) (s : Solution)
    (key : Str) :
    getGroup (insertSol g s) key =
      if groupKey s = key then getGroup g key ++ [s] else getGroup g key := by
  induction g with
  | nil =>
    by_cases h : groupKey s = key
    · simp [insertSol, getGroup, h]
    · simp [insertSol, getGroup, h]
  | cons p rest ih =>
    obtain ⟨k, v⟩ := p
    by_cases hk : k = groupKey s
    · subst hk
      simp only [insertSol, if_pos rfl]
      by_cases h2 : groupKey s = key
      · simp [getGroup, h2]
      · simp [getGroup, h2]
    · simp only [insertSol, if_neg hk]
      by_cases h2 : k = key
      · have hgs : ¬ groupKey s = key := fun hh => hk (h2.trans hh.symm)
        simp [getGroup, h2, hgs]
      · simp [getGroup, h2, ih]

/-- The unseen key computation only depends on membership in the seen
list. -/
theorem newKeys_congr (s₁ s₂ : List Str) (h : ∀ k, k ∈ s₁ ↔ k ∈ s₂)
    (l : List Str) : newKeys s₁ l = newKeys s₂ l := by
  induction l generalizing s₁ s₂ with
  | nil => rfl
  | cons k ks ih =>
    by_cases hm : k ∈ s₁
    · rw [newKeys, newKeys, if_pos hm, if_pos ((h k).mp hm)]
      exact ih s₁ s₂ h
    · rw [newKeys, newKeys, if_neg hm, if_neg (fun hh => hm ((h k).mpr hh))]
      rw [ih (k :: s₁) (k :: s₂) (fun x => by simp [List.mem_cons, h x])]

/-- Membership in the unseen keys. -/
theorem mem_newKeys (seen l : List Str) (key : Str) :
    key ∈ newKeys seen l ↔ key ∈ l ∧ key ∉ seen := by
  induction l generalizing seen with
  | nil => simp [newKeys]
  | cons k ks ih =>
    by_cases hm : k ∈ seen
    · rw [newKeys, if_pos hm, ih seen]
      constructor
      · rintro ⟨h1, h2⟩
        exact ⟨List.mem_cons_of_mem k h1, h2⟩
      · rintro ⟨h1, h2⟩
        rcases List.mem_cons.mp h1 with rfl | hks
        · exact absurd hm h2
        · exact ⟨hks, h2⟩
    · rw [newKeys, if_neg hm]
      constructor
      · intro h1
        rcases List.mem_cons.mp h1 with rfl | htl
        · exact ⟨List.mem_cons_self key ks, hm⟩
        · obtain ⟨hks, hnc⟩ := (ih (k :: seen)).mp htl
          exact ⟨List.mem_cons_of_mem k hks,
            fun hs => hnc (List.mem_cons_of_mem k hs)⟩
      · rintro ⟨h1, h2⟩
        rcases List.mem_cons.mp h1 with rfl | hks
        · exact List.mem_cons_self key _
        · by_cases hek : key = k
          · exact hek ▸ List.mem_cons_self k _
          · exact List.mem_cons_of_mem k ((ih (k :: seen)).mpr
              ⟨hks, fun hc => (List.mem_cons.mp hc).elim hek h2⟩)

/-- The unseen keys are duplicate free. -/
theorem newKeys_nodup (seen l : List Str) : (newKeys seen l).Nodup := by
  induction l generalizing seen with
  | nil => simp [newKeys]
  | cons k ks ih =>
    by_cases hm : k ∈ seen
    · rw [newKeys, if_pos hm]
      exact ih seen
    · rw [newKeys, if_neg hm]
      refine List.nodup_cons.mpr ⟨?_, ih (k :: seen)⟩
      intro hc
      exact ((mem_newKeys (k :: seen) ks k).mp hc).2 (List.mem_cons_self k seen)

/-- The keys of the grouping fold are the starting keys followed by the
new keys in first seen order. -/
theorem group_fold_keys (sols : List Solution) (g : List (Str × List Solution)) :
    (sols.foldl insertSol g).map Prod.fst
      = g.map Prod.fst ++ newKeys (g.map Prod.fst) (sols.map groupKey) := by
  induction sols generalizing g with
  | nil => simp [newKeys]
  | cons s ss ih =>
    rw [List.foldl_cons, ih (insertSol g s), insertSol_keys, List.map_cons]
    by_cases hm : groupKey s ∈ g.map Prod.fst
    · rw [if_pos hm, newKeys, if_pos hm]
    · rw [if_neg hm, newKeys, if_neg hm]
      rw [newKeys_congr (g.map Prod.fst ++ [groupKey s])
        (groupKey s :: g.map Prod.fst)
        (fun x => by simp [List.mem_append, List.mem_cons, or_comm])
        (ss.map groupKey)]
      simp

/-- The group of one key after the grouping fold is what the start held
followed by the matching solutions in input order. -/
theorem group_fold_getGroup (sols : List Solution)
    (g : List (Str × List Solution)) (key : Str) :
    getGroup (sols.foldl insertSol g) key
      = getGroup g key ++ sols.filter (fun s => decide (groupKey s = key)) := by
  induction sols generalizing g with
  | nil => simp
  | cons s ss ih =>
    rw [List.foldl_cons, ih (insertSol g s), insertSol_getGroup]
    by_cases h : groupKey s = key
    · rw [if_pos h, List.filter_cons_of_pos (by simp [h])]
      simp
    · rw [if_neg h, List.filter_cons_of_neg (by simp [h])]

/-- Claim C7 is refuted at an explicit input: the group key joins the
three fields with a vertical bar, so two entries whose triples differ
can collide when the fields themselves contain a bar; the two entries
below have different (kind, name, error) triples yet land in a single
group. -/
theorem C7_counterexample :
    (group_solutions_by_error
      [⟨1, (r"a|b").toList, ['c'], ['e'], ['x'], ['x']⟩,
        ⟨2, ['a'], (r"b|c").toList, ['e'], ['y'], ['y']⟩]).length = 1 ∧
    ((r"a|b").toList, ['c'], ['e']) ≠ (['a'], (r"b|c").toList, (['e'] : Str)) := by
  exact ⟨by decide, by decide⟩

/-- Claim C7 amended: grouping preserves the first seen order of groups
and the input order of entries within each group, and two entries land
in the same group exactly when their joined key strings agree; when the
kind and name fields agree, key equality is exactly equality of the
error text, so two findings with identical kind and name and different
error text land in different groups, while triples differing only
around the bar separator may collide. -/
theorem C7_group_order_and_keys (sols : List Solution) :
    ((group_solutions_by_error sols).map Prod.fst
        = newKeys [] (sols.map groupKey)) ∧
    (∀ key, getGroup (group_solutions_by_error sols) key
        = sols.filter (fun s => decide (groupKey s = key))) ∧
    (∀ s₁ s₂ : Solution, s₁.kind = s₂.kind → s₁.name = s₂.name →
        (groupKey s₁ = groupKey s₂ ↔ s₁.error = s₂.error)) := by
  refine ⟨?_, ?_, ?_⟩
  · simpa using group_fold_keys sols []
  · intro key
    simpa using group_fold_getGroup sols [] key
  · intro s₁ s₂ h1 h2
    unfold groupKey
    rw [h1, h2, List.append_right_inj, List.cons.injEq]
    simp

/-- Witness for the amended claim C7: two concrete entries with the same
kind and name are grouped together exactly when their error texts
agree. -/
theorem C7_group_order_and_keys_witness :
    groupKey ⟨1, (r"Pod").toList, (r"web").toList, (r"e1").toList, ['x'], ['x']⟩ =
        groupKey ⟨2, (r"Pod").toList, (r"web").toList, (r"e2").toList, ['y'], ['y']⟩
      ↔ (r"e1").toList = (r"e2").toList :=
  (C7_group_order_and_keys []).2.2 _ _ rfl rfl

/-- The fold over the steps of one finding, projected to the id free
parts. -/
theorem foldl_pushStep_core (k n e d : Str) (steps : List Str)
    (a : List Solution) :
    (steps.foldl (pushStep k n e d) a).map core
      = a.map core ++ steps.map (fun step => (⟨k, n, e, step, d⟩ : SolutionCore)) := by
  induction steps generalizing a with
  | nil => simp
  | cons s ss ih =>
    rw [List.foldl_cons, ih]
    simp [pushStep, core]

/-- One result of the report appends exactly its contribution, up to
ids. -/
theorem appendFinding_core (acc : List Solution) (res : KResult) :
    (appendFindingSolutions acc res).map core = acc.map core ++ contribution res := by
  unfold appendFindingSolutions contribution
  by_cases hc : errTruthy res.error = true ∧ detailsTruthy res.details = true
  · rw [if_pos hc, if_pos hc, foldl_pushStep_core]
  · rw [if_neg hc, if_neg hc]
    simp

/-- The fold over all results appends the concatenated contributions. -/
theorem foldl_appendFinding_core (rs : List KResult) (acc : List Solution) :
    (rs.foldl appendFindingSolutions acc).map core
      = acc.map core ++ contributionsOf rs := by
  induction rs generalizing acc with
  | nil => simp [contributionsOf]
  | cons r rest ih =>
    rw [List.foldl_cons, ih, appendFinding_core, contributionsOf]
    simp

/-- The extracted solutions are, up to ids, the concatenation of the per
finding contributions. -/
theorem extract_solutions_core (rs : List KResult) :
    (extract_solutions (some rs)).map core = contributionsOf rs := by
  have he : extract_solutions (some rs)
      = if rs = [] then [] else rs.foldl appendFindingSolutions [] := rfl
  rw [he]
  by_cases h : rs = []
  · rw [if_pos h, h]
    rfl
  · rw [if_neg h]
    simpa using foldl_appendFinding_core rs []

/-- Membership in the concatenated contributions. -/
theorem mem_contributionsOf (rs : List KResult) (c : SolutionCore) :
    c ∈ contributionsOf rs ↔ ∃ r ∈ rs, c ∈ contribution r := by
  induction rs with
  | nil => simp [contributionsOf]
  | cons r rest ih =>
    simp [contributionsOf, List.mem_append, ih]

/-- Under truthy error and details, the keys of the contribution of one
result all equal the composite key of the result. -/
theorem contribution_keys (res : KResult)
    (hc : errTruthy res.error = true ∧ detailsTruthy res.details = true) :
    (contribution res).map coreKey
      = (findingSteps (res.details.getD [])).map (fun _ => resultKey res) := by
  unfold contribution
  rw [if_pos hc, List.map_map]
  rfl

/-- Membership in a constant map. -/
theorem mem_map_const {α β : Type} (l : List α) (b x : β) :
    x ∈ l.map (fun _ => b) ↔ x = b ∧ l ≠ [] := by
  cases l with
  | nil => simp
  | cons a t =>
    simp only [List.map_cons, List.mem_cons, List.mem_map]
    constructor
    · rintro (rfl | ⟨y, hy, rfl⟩) <;> exact ⟨rfl, by simp⟩
    · rintro ⟨rfl, h⟩
      exact Or.inl rfl

/-- Claim C6 is refuted at an explicit input: a report with one finding
that has a truthy error and nonempty details, but whose details are the
marker followed by a space, decomposes to no entries, so the grouped
decomposition has no groups and the (kind, name, error) triple of that
finding is omitted. -/
theorem C6_counterexample :
    errTruthy (ErrVal.lst [some ((r"Bad").toList)]) = true ∧
    detailsTruthy (some ((r"Solution: ").toList)) = true ∧
    extract_solutions (some [⟨some ((r"Pod").toList), some ((r"web").toList),
        ErrVal.lst [some ((r"Bad").toList)], some ((r"Solution: ").toList)⟩]) = [] ∧
    (group_solutions_by_error (extract_solutions (some [⟨some ((r"Pod").toList),
        some ((r"web").toList), ErrVal.lst [some ((r"Bad").toList)],
        some ((r"Solution: ").toList)⟩]))).map Prod.fst = [] := by
  exact ⟨by decide, by decide, by decide, by decide⟩

/-- Claim C6 amended: for every report in which each finding has a
truthy error, truthy details and a decomposition with at least one step,
the keys of the grouped decomposition are exactly the composite keys of
the findings of the report, duplicate free and with no omissions. -/
theorem C6_group_keys_match_findings (rs : List KResult)
    (hwf : ∀ r ∈ rs, errTruthy r.error = true ∧ detailsTruthy r.details = true ∧
      findingSteps (r.details.getD []) ≠ []) :
    ((group_solutions_by_error (extract_solutions (some rs))).map Prod.fst).Nodup ∧
    (∀ key, key ∈ (group_solutions_by_error (extract_solutions (some rs))).map Prod.fst
      ↔ ∃ r ∈ rs, resultKey r = key) := by
  have hkeys : (group_solutions_by_error (extract_solutions (some rs))).map Prod.fst
      = newKeys [] ((extract_solutions (some rs)).map groupKey) := by
    simpa using group_fold_keys (extract_solutions (some rs)) []
  have hco : (coreKey ∘ core) = groupKey := funext (fun s => rfl)
  have hmap : (extract_solutions (some rs)).map groupKey
      = (contributionsOf rs).map coreKey := by
    rw [← extract_solutions_core, List.map_map, hco]
  constructor
  · rw [hkeys]
    exact newKeys_nodup _ _
  · intro key
    rw [hkeys, mem_newKeys, hmap]
    simp only [List.not_mem_nil, not_false_eq_true, and_true]
    constructor
    · intro h
      obtain ⟨c, hc, hk⟩ := List.mem_map.mp h
      obtain ⟨r, hr, hcr⟩ := (mem_contributionsOf rs c).mp hc
      obtain ⟨he, hd, -⟩ := hwf r hr
      have hck : coreKey c ∈ (contribution r).map coreKey :=
        List.mem_map_of_mem coreKey hcr
      rw [contribution_keys r ⟨he, hd⟩] at hck
      obtain ⟨hcb, -⟩ := (mem_map_const _ _ _).mp hck
      exact ⟨r, hr, by rw [← hk, hcb]⟩
    · rintro ⟨r, hr, hk⟩
      obtain ⟨he, hd, hs⟩ := hwf r hr
      have h1 : key ∈ (contribution r).map coreKey := by
        rw [contribution_keys r ⟨he, hd⟩]
        exact (mem_map_const _ _ _).mpr ⟨hk.symm, hs⟩
      obtain ⟨c, hc, hck⟩ := List.mem_map.mp h1
      exact List.mem_map.mpr
        ⟨c, (mem_contributionsOf rs c).mpr ⟨r, hr, hc⟩, hck⟩

/-- Witness for the amended claim C6 on a one finding report. -/
theorem C6_group_keys_match_findings_witness :
    ((group_solutions_by_error (extract_solutions (some [⟨some ((r"Pod").toList),
        some ((r"web").toList), ErrVal.lst [some ((r"Bad").toList)],
        some ((r"restart the pod").toList)⟩]))).map Prod.fst).Nodup :=
  (C6_group_keys_match_findings _ (by decide)).1

end K8s2ai
